import Mathlib

/-!
Verification of the keyed TTL cache (jira `UserIDCacheMap`) and the lazily
constructed per-subscription client pool (azurelogs `LogQueryClients` /
`RunQuery`), embedded from the Go sources.

Modelling conventions:
* Go strings are `List Char` (`Str`); all test data is ASCII so byte indices
  and character indices coincide.
* Absolute timestamps and durations are `Int`, in seconds; Go's
  `t.After(u)` is `t > u`, and `time.Now().Add(d)` is `now + d`.
* Go maps are association lists with distinct keys maintained by the
  operations; indexing a missing key yields the zero value, modelled with
  `Option`.
* A Go `*azquery.LogsClient` is `Option LogsClient`: `none` is the nil
  pointer, which both a missing key and a stored nil entry produce on
  lookup.
-/

set_option maxRecDepth 4000

abbrev Str := List Char

/-- The double-quote character that `extractAccountIDFromJQL` searches for. -/
def quoteChar : Char := '"'

/-- `UserIDCache` from jira/client.go: a cached account ID with its absolute
expiration timestamp. -/
structure UserIDCache where
  accountID : Str
  expiresAt : Int
deriving DecidableEq

/-- The underlying storage of `UserIDCacheMap`: a Go `map[string]UserIDCache`
as an association list. -/
abbrev CacheMap := List (Str × UserIDCache)

/-- Go map read `m[k]`: the first binding for `k`, if any. -/
def mapLookup (k : Str) : List (Str × α) → Option α
  | [] => none
  | (k', v) :: rest => if k' = k then some v else mapLookup k rest

/-- Go map write `m[k] = v`: replace the binding for `k` in place, or append
it at the end when `k` is absent. -/
def mapInsert (k : Str) (v : α) : List (Str × α) → List (Str × α)
  | [] => [(k, v)]
  | (k', v') :: rest =>
      if k' = k then (k, v) :: rest else (k', v') :: mapInsert k v rest

/-- Go map delete `delete(m, k)`: remove every binding for `k` (a well-formed
map has at most one). -/
def mapErase (k : Str) : List (Str × α) → List (Str × α)
  | [] => []
  | (k', v') :: rest =>
      if k' = k then mapErase k rest else (k', v') :: mapErase k rest

/-- `UserIDCacheMap.Get`, sequential form: returns `(accountID, true)` when a
binding exists and `now > expiresAt` is false, otherwise `("", false)`, and
deletes the binding when it exists but has expired. -/
def cacheGet (now : Int) (c : CacheMap) (username : Str) :
    (Str × Bool) × CacheMap :=
  match mapLookup username c with
  | none => (([], false), c)
  | some entry =>
      if now > entry.expiresAt then (([], false), mapErase username c)
      else ((entry.accountID, true), c)

/-- `UserIDCacheMap.Set`: store the account ID with
`expiresAt = time.Now().Add(duration)`. -/
def cacheSet (now : Int) (c : CacheMap) (username accountID : Str)
    (duration : Int) : CacheMap :=
  mapInsert username ⟨accountID, now + duration⟩ c

/-- `UserIDCacheMap.Clear`: delete every binding with `now.After(expiresAt)`,
keeping the rest in order. -/
def cacheClear (now : Int) : CacheMap → CacheMap
  | [] => []
  | (k, e) :: rest =>
      if now > e.expiresAt then cacheClear now rest
      else (k, e) :: cacheClear now rest

/-- What `Get` observes about a key while it still holds the shared lock. -/
inductive GetObservation where
  | missAbsent
  | expired
  | hit (accountID : Str)
deriving DecidableEq

/-- The read phase of `UserIDCacheMap.Get`, performed under the shared lock:
look the key up and classify it.  It does not modify the map. -/
def cacheGetObserve (now : Int) (c : CacheMap) (username : Str) :
    GetObservation :=
  match mapLookup username c with
  | none => GetObservation.missAbsent
  | some entry =>
      if now > entry.expiresAt then GetObservation.expired
      else GetObservation.hit entry.accountID

/-- The eviction step of `UserIDCacheMap.Get` after it has dropped the shared
lock and re-acquired the exclusive lock: an unconditional
`delete(c.cache, username)`, with no re-check of the entry. -/
def cacheGetEvictStep (c : CacheMap) (username : Str) : CacheMap :=
  mapErase username c

/-- A modelled `*azquery.LogsClient`; its internals are out of scope, only
its identity matters. -/
structure LogsClient where
  clientId : Nat
deriving DecidableEq

/-- The Go `map[string]*azquery.LogsClient`: values are nilable pointers. -/
abbrev PoolMap := List (Str × Option LogsClient)

/-- Go read `LogQueryClients[k]` on a non-nil map: nil both when the key is
absent and when a nil pointer is stored. -/
def poolLookupFlat (m : PoolMap) (k : Str) : Option LogsClient :=
  match mapLookup k m with
  | none => none
  | some v => v

/-- Go read `LogQueryClients[k]` where the map itself may be nil (indexing a
nil map yields the zero value). -/
def poolLookup (pool : Option PoolMap) (k : Str) : Option LogsClient :=
  match pool with
  | none => none
  | some m => poolLookupFlat m k

/-- The body of `RunQuery`'s exclusive-lock section, after the map has been
made non-nil: re-check `LogQueryClients[k] == nil`; if still nil run the
factory, storing its client result into the map even when it also returns an
error (Go's `LogQueryClients[k], err = CreateLogsClient(...)` assigns the nil
client before `err` is inspected); otherwise use the stored client. -/
def lockedPhase (m : PoolMap) (k : Str) (factory : Except Str LogsClient) :
    PoolMap × Except Str LogsClient :=
  match poolLookupFlat m k with
  | some c => (m, Except.ok c)
  | none =>
      match factory with
      | Except.error e => (mapInsert k none m, Except.error e)
      | Except.ok r => (mapInsert k (some r) m, Except.ok r)

/-- The client-acquisition portion of `RunQuery`: read phase under the shared
lock (`client`, `clientsMapExists`), then, unless the map exists and the
client is non-nil, the exclusive-lock section: allocate the map if nil and
run `lockedPhase`. -/
def runQueryAcquire (pool : Option PoolMap) (k : Str)
    (factory : Except Str LogsClient) :
    Except Str LogsClient × Option PoolMap :=
  match pool, poolLookup pool k with
  | some m, some c => (Except.ok c, some m)
  | p, _ =>
      let m := match p with
        | none => []
        | some m => m
      let r := lockedPhase m k factory
      (r.2, some r.1)

/-- True exactly for `Except.ok`. -/
def exceptIsOk : Except Str LogsClient → Bool
  | Except.ok _ => true
  | Except.error _ => false

/-- One serialized execution of `RunQuery`'s exclusive-lock section: the key
it is for and the factory outcome it would observe. -/
abbrev PoolStep := Str × Except Str LogsClient

/-- Replay a sequence of exclusive-lock sections (the lock serializes them)
against a pool state. -/
def runTrace (m : PoolMap) : List PoolStep → PoolMap
  | [] => m
  | s :: rest => runTrace (lockedPhase m s.1 s.2).1 rest

/-- How many steps of the trace perform a successful construction for key
`k`: steps that find `k` nil under the exclusive lock and whose factory
succeeds. -/
def successfulConstructions (k : Str) : PoolMap → List PoolStep → Nat
  | _, [] => 0
  | m, s :: rest =>
      (if s.1 = k ∧ poolLookupFlat m k = none ∧ exceptIsOk s.2 = true
       then 1 else 0)
      + successfulConstructions k (lockedPhase m s.1 s.2).1 rest

/-- A row of the JQL conversion response; only `convertedQuery` is consumed
by `ConvertJQLWithUsername`. -/
structure ConvertedQuery where
  query : Str
  convertedQuery : Str
deriving DecidableEq

/-- Go `strings.Index(s, c)` for a single-character needle: index of the
first occurrence, `-1` when absent. -/
def goIndex (c : Char) : Str → Int
  | [] => -1
  | x :: rest =>
      if x = c then 0
      else
        let r := goIndex c rest
        if r = -1 then -1 else r + 1

/-- Go `strings.LastIndex(s, c)` for a single-character needle: index of the
last occurrence, `-1` when absent. -/
def goLastIndex (c : Char) : Str → Int
  | [] => -1
  | x :: rest =>
      let r := goLastIndex c rest
      if r = -1 then (if x = c then 0 else -1) else r + 1

/-- `extractAccountIDFromJQL` from jira/client.go: the substring strictly
between the first and the last double quote, or `""` when there is no double
quote or the last is not strictly after the first. -/
def extractAccountIDFromJQL (jql : Str) : Str :=
  let start := goIndex quoteChar jql
  if start = -1 then []
  else
    let stop := goLastIndex quoteChar jql
    if stop = -1 ∨ stop ≤ start then []
    else ((jql.drop (start + 1).toNat).take (stop - start - 1).toNat)

/-- Number of double quotes in a string. -/
def countQuote : Str → Nat
  | [] => 0
  | x :: rest => (if x = quoteChar then 1 else 0) + countQuote rest

/-- The fixed TTL `ConvertJQLWithUsername` caches with: `10*time.Minute`,
in seconds. -/
def tenMinutes : Int := 600

/-- `fmt.Sprintf("assignee = \"%s\"", id)`. -/
def rebuildAssignee (accountID : Str) : Str :=
  (("assignee = ").toList) ++ quoteChar :: accountID ++ [quoteChar]

/-- The descriptive errors `ConvertJQLWithUsername` can return: a propagated
external failure (network error, non-2xx status, or response parse failure),
an empty conversion result naming the username, or an extraction failure
carrying the offending converted query. -/
inductive ResolveError where
  | externalFailure (e : Str)
  | noConversionResult (username : Str)
  | extractFailed (converted : Str)
deriving DecidableEq

/-- `Widget.ConvertJQLWithUsername`: cache hit returns
`fmt.Sprintf("assignee = \"%s\"", accountID)`; on a miss the external JQL
conversion call (request marshalling, POST and JSON parse collapsed into one
`Except`-valued collaborator) either fails, yields zero results, yields a
result whose converted query has no extractable account ID — each an error
that performs no cache write — or succeeds, in which case the extracted ID is
cached for ten minutes and the converted query is returned verbatim. -/
def convertJQLWithUsername (now : Int) (cache : CacheMap) (username : Str)
    (ext : Except Str (List ConvertedQuery)) :
    Except ResolveError Str × CacheMap :=
  let r := cacheGet now cache username
  if r.1.2 then (Except.ok (rebuildAssignee r.1.1), r.2)
  else
    match ext with
    | Except.error e => (Except.error (ResolveError.externalFailure e), r.2)
    | Except.ok [] =>
        (Except.error (ResolveError.noConversionResult username), r.2)
    | Except.ok (q :: _) =>
        let accountID := extractAccountIDFromJQL q.convertedQuery
        if accountID = [] then
          (Except.error (ResolveError.extractFailed q.convertedQuery), r.2)
        else (Except.ok q.convertedQuery,
              cacheSet now r.2 username accountID tenMinutes)

/-! ## Helper lemmas about the map operations -/

theorem mapLookup_mapInsert_self (k : Str) (v : α) (m : List (Str × α)) :
    mapLookup k (mapInsert k v m) = some v := by
  induction m with
  | nil => simp [mapInsert, mapLookup]
  | cons p rest ih =>
      obtain ⟨k', v'⟩ := p
      by_cases h : k' = k
      · simp [mapInsert, mapLookup, h]
      · simp [mapInsert, mapLookup, h, ih]

theorem mapLookup_mapInsert_ne (k k' : Str) (v : α) (m : List (Str × α))
    (hk : k' ≠ k) : mapLookup k (mapInsert k' v m) = mapLookup k m := by
  induction m with
  | nil => simp [mapInsert, mapLookup, hk]
  | cons p rest ih =>
      obtain ⟨k₀, v₀⟩ := p
      by_cases h : k₀ = k'
      · subst h; simp [mapInsert, mapLookup, hk]
      · by_cases h2 : k₀ = k
        · simp [mapInsert, mapLookup, h, h2, Ne.symm hk]
        · simp [mapInsert, mapLookup, h, h2, ih]

theorem mapLookup_mapErase_self (k : Str) (m : List (Str × α)) :
    mapLookup k (mapErase k m) = none := by
  induction m with
  | nil => simp [mapErase, mapLookup]
  | cons p rest ih =>
      obtain ⟨k', v'⟩ := p
      by_cases h : k' = k
      · simp [mapErase, h, ih]
      · simp [mapErase, mapLookup, h, ih]

theorem mapErase_of_lookup_none (k : Str) (m : List (Str × α))
    (h : mapLookup k m = none) : mapErase k m = m := by
  induction m with
  | nil => simp [mapErase]
  | cons p rest ih =>
      obtain ⟨k', v'⟩ := p
      by_cases hk : k' = k
      · simp [mapLookup, hk] at h
      · simp [mapLookup, hk] at h
        simp [mapErase, hk, ih h]

theorem mem_cacheClear (now : Int) (c : CacheMap) (p : Str × UserIDCache) :
    p ∈ cacheClear now c ↔ p ∈ c ∧ now ≤ p.2.expiresAt := by
  induction c with
  | nil => simp [cacheClear]
  | cons q rest ih =>
      obtain ⟨k, e⟩ := q
      by_cases h : now > e.expiresAt
      · simp only [cacheClear, if_pos h, ih, List.mem_cons]
        constructor
        · rintro ⟨hm, hle⟩; exact ⟨Or.inr hm, hle⟩
        · rintro ⟨hm | hm, hle⟩
          · exfalso; rw [hm] at hle; simp at hle; omega
          · exact ⟨hm, hle⟩
      · simp only [cacheClear, if_neg h, List.mem_cons, ih]
        constructor
        · rintro (hm | ⟨hm, hle⟩)
          · refine ⟨Or.inl hm, ?_⟩; rw [hm]; simp; omega
          · exact ⟨Or.inr hm, hle⟩
        · rintro ⟨hm | hm, hle⟩
          · exact Or.inl hm
          · exact Or.inr ⟨hm, hle⟩

/-! ## Helper lemmas about the extraction function -/

theorem neg_one_le_goIndex (c : Char) (s : Str) : -1 ≤ goIndex c s := by
  induction s with
  | nil => simp [goIndex]
  | cons x rest ih =>
      simp only [goIndex]
      by_cases hx : x = c
      · simp [hx]
      · simp only [if_neg hx]
        by_cases hr : goIndex c rest = -1
        · simp [hr]
        · simp [hr]; omega

theorem neg_one_le_goLastIndex (c : Char) (s : Str) : -1 ≤ goLastIndex c s := by
  induction s with
  | nil => simp [goLastIndex]
  | cons x rest ih =>
      simp only [goLastIndex]
      by_cases hr : goLastIndex c rest = -1
      · by_cases hx : x = c <;> simp [hr, hx]
      · simp [hr]; omega

theorem goIndex_eq_neg_one_iff (c : Char) (s : Str) :
    goIndex c s = -1 ↔ c ∉ s := by
  induction s with
  | nil => simp [goIndex]
  | cons x rest ih =>
      simp only [goIndex, List.mem_cons]
      by_cases hx : x = c
      · simp [hx]
      · by_cases hr : goIndex c rest = -1
        · have hmem : c ∉ rest := ih.mp hr
          simp [hx, hr, hmem, Ne.symm hx]
        · have hge : -1 ≤ goIndex c rest := neg_one_le_goIndex c rest
          have hmem : c ∈ rest := by
            by_contra hnm
            exact hr (ih.mpr hnm)
          simp [hx, hr, hmem]
          omega

theorem goLastIndex_eq_neg_one_iff (c : Char) (s : Str) :
    goLastIndex c s = -1 ↔ c ∉ s := by
  induction s with
  | nil => simp [goLastIndex]
  | cons x rest ih =>
      simp only [goLastIndex, List.mem_cons]
      by_cases hr : goLastIndex c rest = -1
      · have hmem : c ∉ rest := ih.mp hr
        by_cases hx : x = c
        · simp [hr, hx]
        · simp [hr, hx, hmem, Ne.symm hx]
      · have hge : -1 ≤ goLastIndex c rest := neg_one_le_goLastIndex c rest
        have hmem : c ∈ rest := by
          by_contra hnm
          exact hr (ih.mpr hnm)
        simp [hr, hmem]
        omega

theorem goIndex_append (c : Char) (a t : Str) (ha : c ∉ a) :
    goIndex c (a ++ c :: t) = a.length := by
  induction a with
  | nil => simp [goIndex]
  | cons x a' ih =>
      have hx : x ≠ c := by
        rintro rfl; exact ha (List.mem_cons_self _ _)
      have ha' : c ∉ a' := fun h => ha (List.mem_cons_of_mem _ h)
      have h1 : goIndex c (a' ++ c :: t) = a'.length := ih ha'
      have h2 : ((a'.length : Int)) ≠ -1 := by omega
      simp only [List.cons_append, goIndex, List.append_eq, if_neg hx, h1,
        if_neg h2, List.length_cons]
      push_cast
      ring

theorem goLastIndex_append (c : Char) (l b : Str) (hb : c ∉ b) :
    goLastIndex c (l ++ c :: b) = l.length := by
  induction l with
  | nil =>
      have hb' : goLastIndex c b = -1 := (goLastIndex_eq_neg_one_iff c b).mpr hb
      simp [goLastIndex, hb']
  | cons x l' ih =>
      have h2 : ((l'.length : Int)) ≠ -1 := by omega
      simp only [List.cons_append, goLastIndex, List.append_eq, ih, if_neg h2,
        List.length_cons]
      push_cast
      ring

theorem extract_between (a m b : Str) (ha : quoteChar ∉ a)
    (hb : quoteChar ∉ b) :
    extractAccountIDFromJQL (a ++ (quoteChar :: (m ++ (quoteChar :: b)))) = m := by
  have hstart : goIndex quoteChar (a ++ (quoteChar :: (m ++ (quoteChar :: b))))
      = a.length := goIndex_append _ _ _ ha
  have hassoc : a ++ (quoteChar :: (m ++ (quoteChar :: b)))
      = (a ++ (quoteChar :: m)) ++ (quoteChar :: b) := by simp
  have hstop : goLastIndex quoteChar (a ++ (quoteChar :: (m ++ (quoteChar :: b))))
      = (a.length : Int) + 1 + m.length := by
    rw [hassoc, goLastIndex_append _ _ _ hb]
    push_cast [List.length_append, List.length_cons]
    ring
  have h1 : ((a.length : Int)) ≠ -1 := by omega
  have h2 : ¬(((a.length : Int) + 1 + m.length = -1) ∨
      ((a.length : Int) + 1 + m.length ≤ a.length)) := by omega
  simp only [extractAccountIDFromJQL, hstart, hstop, if_neg h1, if_neg h2]
  have h3 : ((a.length : Int) + 1).toNat = a.length + 1 := by omega
  have h4 : ((a.length : Int) + 1 + m.length - a.length - 1).toNat
      = m.length := by omega
  rw [h3, h4]
  have h5 : a ++ (quoteChar :: (m ++ (quoteChar :: b)))
      = (a ++ [quoteChar]) ++ (m ++ (quoteChar :: b)) := by simp
  have h6 : a.length + 1 = (a ++ [quoteChar]).length := by simp
  rw [h5, h6, List.drop_left, List.take_left]

theorem countQuote_eq_zero_iff (s : Str) :
    countQuote s = 0 ↔ quoteChar ∉ s := by
  induction s with
  | nil => simp [countQuote]
  | cons x rest ih =>
      simp only [countQuote, List.mem_cons]
      by_cases hx : x = quoteChar
      · simp [hx]
      · simp [hx, ih, Ne.symm hx]

theorem goLastIndex_le_goIndex_of_count (s : Str) (h : countQuote s ≤ 1) :
    goLastIndex quoteChar s ≤ goIndex quoteChar s := by
  induction s with
  | nil => simp [goIndex, goLastIndex]
  | cons x rest ih =>
      by_cases hx : x = quoteChar
      · have hcz : countQuote rest = 0 := by
          simp only [countQuote, if_pos hx] at h
          omega
        have hnm : quoteChar ∉ rest := (countQuote_eq_zero_iff rest).mp hcz
        have hl : goLastIndex quoteChar rest = -1 :=
          (goLastIndex_eq_neg_one_iff quoteChar rest).mpr hnm
        simp [goIndex, goLastIndex, hx, hl]
      · have hc : countQuote rest ≤ 1 := by
          simp only [countQuote, if_neg hx] at h
          omega
        have hle := ih hc
        by_cases hr : goLastIndex quoteChar rest = -1
        · have := neg_one_le_goIndex quoteChar (x :: rest)
          simp only [goLastIndex, if_pos hr, if_neg hx]
          omega
        · have hge : -1 ≤ goLastIndex quoteChar rest :=
            neg_one_le_goLastIndex quoteChar rest
          have hgi : goIndex quoteChar rest ≠ -1 := by omega
          simp only [goLastIndex, goIndex, if_neg hr, if_neg hx, if_neg hgi]
          omega

theorem extract_eq_nil_of_count (s : Str) (h : countQuote s ≤ 1) :
    extractAccountIDFromJQL s = [] := by
  by_cases h1 : goIndex quoteChar s = -1
  · simp [extractAccountIDFromJQL, h1]
  · have h2 : goLastIndex quoteChar s ≤ goIndex quoteChar s :=
      goLastIndex_le_goIndex_of_count s h
    simp only [extractAccountIDFromJQL, if_neg h1]
    rw [if_pos (Or.inr h2)]

/-! ## Helper lemmas about the cache operations -/

theorem cacheGet_miss_absent (now : Int) (c : CacheMap) (k : Str)
    (h : (cacheGet now c k).1.2 = false) :
    mapLookup k (cacheGet now c k).2 = none := by
  cases hl : mapLookup k c with
  | none => simp [cacheGet, hl]
  | some entry =>
      by_cases he : now > entry.expiresAt
      · simp [cacheGet, hl, he, mapLookup_mapErase_self]
      · exfalso
        simp [cacheGet, hl, he] at h

theorem cacheGet_found_iff (now : Int) (c : CacheMap) (k : Str) :
    (cacheGet now c k).1.2 = true ↔
      ∃ e, mapLookup k c = some e ∧ now ≤ e.expiresAt := by
  cases hl : mapLookup k c with
  | none => simp [cacheGet, hl]
  | some entry =>
      by_cases he : now > entry.expiresAt
      · simp [cacheGet, hl, he]
        try omega
      · simp [cacheGet, hl, he]
        try omega

/-! ## Helper lemmas about the client pool -/

theorem poolLookupFlat_mapInsert_self (m : PoolMap) (k : Str)
    (v : Option LogsClient) : poolLookupFlat (mapInsert k v m) k = v := by
  simp [poolLookupFlat, mapLookup_mapInsert_self]

theorem poolLookupFlat_mapInsert_ne (m : PoolMap) (k k' : Str)
    (v : Option LogsClient) (hk : k' ≠ k) :
    poolLookupFlat (mapInsert k' v m) k = poolLookupFlat m k := by
  simp [poolLookupFlat, mapLookup_mapInsert_ne k k' v m hk]

theorem lockedPhase_preserves_some (m : PoolMap) (k k' : Str)
    (f : Except Str LogsClient) (c : LogsClient)
    (h : poolLookupFlat m k = some c) :
    poolLookupFlat (lockedPhase m k' f).1 k = some c := by
  by_cases hk : k' = k
  · subst hk
    simp [lockedPhase, h]
  · unfold lockedPhase
    cases hf : poolLookupFlat m k' with
    | some c' => simpa using h
    | none =>
        cases f with
        | error e => simpa [poolLookupFlat_mapInsert_ne m k k' none hk] using h
        | ok r => simpa [poolLookupFlat_mapInsert_ne m k k' (some r) hk] using h

theorem runTrace_preserves_some (tr : List PoolStep) (m : PoolMap) (k : Str)
    (c : LogsClient) (h : poolLookupFlat m k = some c) :
    poolLookupFlat (runTrace m tr) k = some c := by
  induction tr generalizing m with
  | nil => simpa [runTrace] using h
  | cons s rest ih =>
      simp only [runTrace]
      exact ih _ (lockedPhase_preserves_some m k s.1 s.2 c h)

theorem successfulConstructions_eq_zero_of_some (tr : List PoolStep)
    (m : PoolMap) (k : Str) (c : LogsClient)
    (h : poolLookupFlat m k = some c) :
    successfulConstructions k m tr = 0 := by
  induction tr generalizing m with
  | nil => simp [successfulConstructions]
  | cons s rest ih =>
      have hcond : ¬(s.1 = k ∧ poolLookupFlat m k = none ∧
          exceptIsOk s.2 = true) := by
        rintro ⟨-, hn, -⟩
        rw [h] at hn
        exact Option.noConfusion hn
      simp only [successfulConstructions, if_neg hcond, Nat.zero_add]
      exact ih _ (lockedPhase_preserves_some m k s.1 s.2 c h)

theorem successfulConstructions_le_one (m : PoolMap) (k : Str)
    (tr : List PoolStep) : successfulConstructions k m tr ≤ 1 := by
  induction tr generalizing m with
  | nil => simp [successfulConstructions]
  | cons s rest ih =>
      by_cases hcond : s.1 = k ∧ poolLookupFlat m k = none ∧
          exceptIsOk s.2 = true
      · have hk := hcond.1
        have hn := hcond.2.1
        have hok := hcond.2.2
        cases hf : s.2 with
        | error e => rw [hf] at hok; simp [exceptIsOk] at hok
        | ok r =>
            have hstep : (lockedPhase m s.1 s.2).1 = mapInsert k (some r) m := by
              rw [hk, hf]
              simp [lockedPhase, hn]
            have hsome : poolLookupFlat (lockedPhase m s.1 s.2).1 k = some r := by
              rw [hstep]
              exact poolLookupFlat_mapInsert_self m k (some r)
            have hz := successfulConstructions_eq_zero_of_some rest _ k r hsome
            simp only [successfulConstructions, if_pos hcond, hz]
            omega
      · simp only [successfulConstructions, if_neg hcond, Nat.zero_add]
        exact ih _

theorem cacheClear_eq_filter (now : Int) (c : CacheMap) :
    cacheClear now c = c.filter (fun p => decide (now ≤ p.2.expiresAt)) := by
  induction c with
  | nil => simp [cacheClear]
  | cons q rest ih =>
      obtain ⟨k, e⟩ := q
      by_cases h : now > e.expiresAt
      · rw [List.filter_cons]
        simp [cacheClear, h, ih, show ¬ now ≤ e.expiresAt by omega]
      · rw [List.filter_cons]
        simp [cacheClear, h, ih, show now ≤ e.expiresAt by omega]

theorem cacheGet_expired_factors (now : Int) (c : CacheMap) (k : Str)
    (h : cacheGetObserve now c k = GetObservation.expired) :
    cacheGet now c k = (([], false), cacheGetEvictStep c k) := by
  cases hl : mapLookup k c with
  | none => rw [cacheGetObserve, hl] at h; exact GetObservation.noConfusion h
  | some entry =>
      by_cases he : now > entry.expiresAt
      · simp [cacheGet, hl, he, cacheGetEvictStep]
      · rw [cacheGetObserve, hl] at h
        simp only [if_neg he] at h
        exact GetObservation.noConfusion h

/-! ## Claim theorems -/

/-- C1 counterexample: with the entry for the key expiring exactly at the
current time (expiresAt = now = 5), its expiration is not strictly after the
current time, yet Get returns the cached value and true rather than the zero
value and false: the code's freshness test is `!(now > expiresAt)`, which
accepts equality. -/
theorem c1_strictly_after_counterexample :
    mapLookup ['k'] [(['k'], (⟨['v'], 5⟩ : UserIDCache))]
      = some ⟨['v'], 5⟩ ∧
    ¬ ((5 : Int) < 5) ∧
    (cacheGet 5 [(['k'], (⟨['v'], 5⟩ : UserIDCache))] ['k']).1
      = (['v'], true) := by
  refine ⟨rfl, by omega, rfl⟩

/-- C1 (amended): after Set(k, v, d) the entry has expiresAt = set-time + d,
and Get(k) returns (v, true) iff the entry exists and its expiration is at
or after the current time (rather than strictly after); otherwise Get
returns the zero value and false.  In particular Set followed immediately by
Get with d > 0 returns (v, true), and once the current time is strictly past
set-time + d, Get returns ("", false). -/
theorem c1_ttl_correctness :
    ∀ (now : Int) (c : CacheMap) (k v : Str) (d : Int),
    mapLookup k (cacheSet now c k v d) = some ⟨v, now + d⟩ ∧
    ((cacheGet now c k).1.2 = true ↔
       ∃ e, mapLookup k c = some e ∧ now ≤ e.expiresAt) ∧
    (∀ e, mapLookup k c = some e → now ≤ e.expiresAt →
       (cacheGet now c k).1 = (e.accountID, true)) ∧
    ((cacheGet now c k).1.2 = false → (cacheGet now c k).1 = ([], false)) ∧
    (0 < d → (cacheGet now (cacheSet now c k v d) k).1 = (v, true)) ∧
    (∀ t', now + d < t' →
       (cacheGet t' (cacheSet now c k v d) k).1 = ([], false)) := by
  intro now c k v d
  refine ⟨mapLookup_mapInsert_self k _ c, cacheGet_found_iff now c k,
    ?_, ?_, ?_, ?_⟩
  · intro e hl he
    simp [cacheGet, hl, show ¬now > e.expiresAt by omega]
  · intro h
    cases hl : mapLookup k c with
    | none => simp [cacheGet, hl]
    | some e =>
        by_cases he : now > e.expiresAt
        · simp [cacheGet, hl, he]
        · exfalso
          simp [cacheGet, hl, he] at h
  · intro hd
    simp [cacheGet, cacheSet, mapLookup_mapInsert_self,
      show ¬now > now + d by omega]
  · intro t' ht
    simp [cacheGet, cacheSet, mapLookup_mapInsert_self,
      show t' > now + d by omega]

/-- Witness for c1_ttl_correctness at a concrete input: set at time 0 with
ttl 7, read back at time 0 (hit) and at time 8 (miss). -/
theorem c1_ttl_correctness_witness :
    mapLookup ['k'] (cacheSet 0 [] ['k'] ['v'] 7) = some ⟨['v'], 7⟩ ∧
    (cacheGet 0 (cacheSet 0 [] ['k'] ['v'] 7) ['k']).1 = (['v'], true) ∧
    (cacheGet 8 (cacheSet 0 [] ['k'] ['v'] 7) ['k']).1 = ([], false) := by
  obtain ⟨h1, -, -, -, h5, h6⟩ := c1_ttl_correctness 0 [] ['k'] ['v'] 7
  exact ⟨h1, h5 (by omega), h6 8 (by omega)⟩

/-- C3: the code's Get, having observed an expired entry under the shared
lock (entry for the key expired at 0, observed at time 5), performs an
unconditional delete after re-acquiring the exclusive lock; if another
writer refreshed the key in between (Set at time 5 with ttl 100, so
expiresAt 105), the delete step removes that fresh entry — Get removes an
entry whose expiration (105) is still strictly in the future (now = 5),
contradicting the required no-op behavior. -/
theorem c3_refresh_race_bug :
    cacheGetObserve 5 [(['a'], (⟨['o'], 0⟩ : UserIDCache))] ['a']
      = GetObservation.expired ∧
    mapLookup ['a']
        (cacheSet 5 [(['a'], (⟨['o'], 0⟩ : UserIDCache))] ['a'] ['n'] 100)
      = some ⟨['n'], 105⟩ ∧
    ((5 : Int) < 105) ∧
    mapLookup ['a']
        (cacheGetEvictStep
          (cacheSet 5 [(['a'], (⟨['o'], 0⟩ : UserIDCache))] ['a'] ['n'] 100)
          ['a'])
      = none := by
  refine ⟨rfl, rfl, by omega, rfl⟩

/-- C5: an expired entry is never returned — a Get hit implies the entry
exists with expiration at or after now — and after any Get miss the key is
absent from the underlying storage map; in particular a Get on an expired
entry misses and removes it, so expired entries do not accumulate. -/
theorem c5_expired_purge :
    ∀ (now : Int) (c : CacheMap) (k : Str),
    ((cacheGet now c k).1.2 = false →
       mapLookup k (cacheGet now c k).2 = none) ∧
    ((cacheGet now c k).1.2 = true →
       ∃ e, mapLookup k c = some e ∧ now ≤ e.expiresAt) ∧
    (∀ e, mapLookup k c = some e → e.expiresAt < now →
       (cacheGet now c k).1 = ([], false) ∧
       mapLookup k (cacheGet now c k).2 = none) := by
  intro now c k
  refine ⟨cacheGet_miss_absent now c k, (cacheGet_found_iff now c k).mp, ?_⟩
  intro e hl he
  constructor
  · simp [cacheGet, hl, show now > e.expiresAt by omega]
  · simp [cacheGet, hl, show now > e.expiresAt by omega,
      mapLookup_mapErase_self]

/-- Witness for c5_expired_purge: key expired at time 3, read at time 9. -/
theorem c5_expired_purge_witness :
    (cacheGet 9 [(['k'], (⟨['v'], 3⟩ : UserIDCache))] ['k']).1
      = ([], false) ∧
    mapLookup ['k']
        (cacheGet 9 [(['k'], (⟨['v'], 3⟩ : UserIDCache))] ['k']).2
      = none := by
  exact (c5_expired_purge 9 [(['k'], ⟨['v'], 3⟩)] ['k']).2.2
    ⟨['v'], 3⟩ rfl (by decide)

/-- C6 counterexample: an entry whose expiresAt equals the current time —
"at or before" it — is NOT removed by Clear: the code removes only entries
with now strictly after expiresAt, so the entry survives. -/
theorem c6_sweep_counterexample :
    ((5 : Int) ≤ 5) ∧
    cacheClear 5 [(['k'], (⟨['v'], 5⟩ : UserIDCache))]
      = [(['k'], (⟨['v'], 5⟩ : UserIDCache))] := by
  exact ⟨le_refl 5, rfl⟩

/-- C6 (amended): Clear removes exactly the entries whose expiresAt is
strictly before the current time — including entries never read — and keeps
every entry whose expiresAt is at or after the current time untouched, in
order: it is the filter keeping entries with now ≤ expiresAt. -/
theorem c6_sweep_cleaner :
    ∀ (now : Int) (c : CacheMap),
    cacheClear now c = c.filter (fun p => decide (now ≤ p.2.expiresAt)) ∧
    ∀ p : Str × UserIDCache,
      p ∈ cacheClear now c ↔ p ∈ c ∧ now ≤ p.2.expiresAt := by
  intro now c
  exact ⟨cacheClear_eq_filter now c, mem_cacheClear now c⟩

/-- C9 counterexample: with ttl = 0 — a non-positive duration — Set stores
expiresAt = set-time, and a Get at that same instant still returns the
value and true: the entry is not immediately expired at the set instant. -/
theorem c9_nonpositive_ttl_counterexample :
    ((0 : Int) ≤ 0) ∧
    (cacheGet 0 (cacheSet 0 [] ['k'] ['v'] 0) ['k']).1 = (['v'], true) := by
  exact ⟨le_refl 0, rfl⟩

/-- C9 (amended): Set with a non-positive ttl is not an error: it stores an
entry with expiresAt = set-time + ttl ≤ set-time, so a Get at any strictly
later time returns ("", false) and evicts the entry; only a Get at the
exact set instant with ttl = 0 still sees the value. -/
theorem c9_nonpositive_ttl :
    ∀ (now t' : Int) (c : CacheMap) (k v : Str) (ttl : Int),
    ttl ≤ 0 → now < t' →
    mapLookup k (cacheSet now c k v ttl) = some ⟨v, now + ttl⟩ ∧
    (cacheGet t' (cacheSet now c k v ttl) k).1 = ([], false) ∧
    mapLookup k (cacheGet t' (cacheSet now c k v ttl) k).2 = none := by
  intro now t' c k v ttl h1 h2
  refine ⟨mapLookup_mapInsert_self k _ c, ?_, ?_⟩
  · simp [cacheGet, cacheSet, mapLookup_mapInsert_self,
      show t' > now + ttl by omega]
  · simp [cacheGet, cacheSet, mapLookup_mapInsert_self,
      show t' > now + ttl by omega, mapLookup_mapErase_self]

/-- Witness for c9_nonpositive_ttl: ttl 0 set at time 0, read at time 1. -/
theorem c9_nonpositive_ttl_witness :
    (cacheGet 1 (cacheSet 0 [] ['k'] ['v'] 0) ['k']).1 = ([], false) ∧
    mapLookup ['k'] (cacheGet 1 (cacheSet 0 [] ['k'] ['v'] 0) ['k']).2
      = none := by
  obtain ⟨-, h2, h3⟩ := c9_nonpositive_ttl 0 1 [] ['k'] ['v'] 0
    (by omega) (by omega)
  exact ⟨h2, h3⟩

/-- C2 counterexample: before the failed call the pool map is empty, with no
entry for the key; the failed GetOrCreate returns the factory error but
leaves a nil-valued entry for the key in the map (Go's
`LogQueryClients[k], err = CreateLogsClient(...)` stores the nil client
before the error is checked), so the map is not left exactly as it was. -/
theorem c2_failure_counterexample :
    mapLookup ['s'] ([] : PoolMap) = none ∧
    runQueryAcquire (some ([] : PoolMap)) ['s'] (Except.error ['b'])
      = (Except.error ['b'], some [(['s'], (none : Option LogsClient))]) ∧
    mapLookup ['s'] [(['s'], (none : Option LogsClient))] = some none := by
  refine ⟨rfl, rfl, rfl⟩

/-- C2 (amended): a failed GetOrCreate stores no usable resource for the
key — afterwards the key reads as nil, i.e. absent, even though the
underlying map now holds a nil-valued placeholder entry for it — and a
subsequent GetOrCreate with a succeeding factory succeeds and stores the
resource for the key. -/
theorem c2_failure_nonsticky :
    ∀ (pool : Option PoolMap) (k : Str) (f : Except Str LogsClient)
      (e : Str) (p' : Option PoolMap),
    runQueryAcquire pool k f = (Except.error e, p') →
    poolLookup p' k = none ∧
    ∀ r : LogsClient, ∃ m' : PoolMap, p' = some m' ∧
      runQueryAcquire p' k (Except.ok r)
        = (Except.ok r, some (mapInsert k (some r) m')) ∧
      poolLookupFlat (mapInsert k (some r) m') k = some r := by
  intro pool k f e p' h
  have hmain : ∃ m : PoolMap, poolLookupFlat m k = none ∧
      p' = some (mapInsert k (none : Option LogsClient) m) := by
    cases pool with
    | none =>
        simp only [runQueryAcquire] at h
        cases f with
        | error e' =>
            simp only [lockedPhase, poolLookupFlat, mapLookup] at h
            rw [Prod.mk.injEq] at h
            exact ⟨[], rfl, h.2.symm⟩
        | ok r =>
            simp only [lockedPhase, poolLookupFlat, mapLookup] at h
            rw [Prod.mk.injEq] at h
            exact Except.noConfusion h.1
    | some m =>
        cases hfl : poolLookupFlat m k with
        | some c =>
            simp only [runQueryAcquire, poolLookup, hfl] at h
            rw [Prod.mk.injEq] at h
            exact Except.noConfusion h.1
        | none =>
            simp only [runQueryAcquire, poolLookup, hfl] at h
            cases f with
            | error e' =>
                simp only [lockedPhase, hfl] at h
                rw [Prod.mk.injEq] at h
                exact ⟨m, hfl, h.2.symm⟩
            | ok r =>
                simp only [lockedPhase, hfl] at h
                rw [Prod.mk.injEq] at h
                exact Except.noConfusion h.1
  obtain ⟨m, hfl, hp⟩ := hmain
  subst hp
  have hnil : poolLookupFlat (mapInsert k (none : Option LogsClient) m) k
      = none := poolLookupFlat_mapInsert_self m k none
  refine ⟨by simpa [poolLookup] using hnil, ?_⟩
  intro r
  refine ⟨mapInsert k none m, rfl, ?_, poolLookupFlat_mapInsert_self _ k _⟩
  simp only [runQueryAcquire, poolLookup, hnil, lockedPhase]

/-- Witness for c2_failure_nonsticky: a failed creation for an empty pool,
followed by a successful retry. -/
theorem c2_failure_nonsticky_witness :
    poolLookup (some [(['s'], (none : Option LogsClient))]) ['s'] = none ∧
    runQueryAcquire (some [(['s'], (none : Option LogsClient))]) ['s']
        (Except.ok ⟨7⟩)
      = (Except.ok ⟨7⟩, some [(['s'], some (⟨7⟩ : LogsClient))]) := by
  obtain ⟨h1, h2⟩ := c2_failure_nonsticky (some []) ['s']
    (Except.error ['b']) ['b'] (some [(['s'], none)]) rfl
  obtain ⟨m', hm', hrun, -⟩ := h2 ⟨7⟩
  have hm'' : m' = [(['s'], (none : Option LogsClient))] :=
    (Option.some.inj hm').symm
  subst hm''
  exact ⟨h1, hrun⟩

/-- C4: at most one resource is ever successfully constructed per key across
any serialized sequence of exclusive-lock sections; a GetOrCreate that finds
a non-nil resource returns it on the shared-lock fast path, with a result
independent of the factory; the exclusive-lock section re-checks the key
and, finding a resource, returns it without constructing a second one; and a
constructed resource persists unchanged through any further steps, so every
later caller receives that same resource. -/
theorem c4_construct_once :
    (∀ (m : PoolMap) (k : Str) (tr : List PoolStep),
       successfulConstructions k m tr ≤ 1) ∧
    (∀ (pool : Option PoolMap) (k : Str) (c : LogsClient)
       (f f' : Except Str LogsClient),
       poolLookup pool k = some c →
       runQueryAcquire pool k f = (Except.ok c, pool) ∧
       runQueryAcquire pool k f = runQueryAcquire pool k f') ∧
    (∀ (m : PoolMap) (k : Str) (c : LogsClient) (f : Except Str LogsClient),
       poolLookupFlat m k = some c → lockedPhase m k f = (m, Except.ok c)) ∧
    (∀ (m : PoolMap) (k : Str) (c : LogsClient) (tr : List PoolStep),
       poolLookupFlat m k = some c →
       poolLookupFlat (runTrace m tr) k = some c) := by
  refine ⟨successfulConstructions_le_one, ?_, ?_, ?_⟩
  · intro pool k c f f' h
    cases pool with
    | none => simp [poolLookup] at h
    | some m =>
        have hfl : poolLookupFlat m k = some c := by
          simpa [poolLookup] using h
        constructor
        · simp [runQueryAcquire, poolLookup, hfl]
        · simp [runQueryAcquire, poolLookup, hfl]
  · intro m k c f h
    simp [lockedPhase, h]
  · intro m k c tr h
    exact runTrace_preserves_some tr m k c h

/-- Witness for c4_construct_once: two successive successful factories for
the same key construct once; a stored client short-circuits both the fast
path and the locked re-check, and persists through a later step. -/
theorem c4_construct_once_witness :
    successfulConstructions ['k'] []
        [(['k'], Except.ok ⟨1⟩), (['k'], Except.ok ⟨2⟩)] ≤ 1 ∧
    runQueryAcquire (some [(['k'], some (⟨1⟩ : LogsClient))]) ['k']
        (Except.error ['x'])
      = (Except.ok ⟨1⟩, some [(['k'], some (⟨1⟩ : LogsClient))]) ∧
    lockedPhase [(['k'], some (⟨1⟩ : LogsClient))] ['k'] (Except.error ['x'])
      = ([(['k'], some (⟨1⟩ : LogsClient))], Except.ok ⟨1⟩) ∧
    poolLookupFlat
        (runTrace [(['k'], some (⟨1⟩ : LogsClient))]
          [(['k'], Except.ok ⟨9⟩)]) ['k']
      = some ⟨1⟩ := by
  refine ⟨c4_construct_once.1 [] ['k'] _,
    (c4_construct_once.2.1 (some [(['k'], some ⟨1⟩)]) ['k'] ⟨1⟩
      (Except.error ['x']) (Except.error ['x']) rfl).1,
    c4_construct_once.2.2.1 _ ['k'] ⟨1⟩ _ rfl,
    c4_construct_once.2.2.2 _ ['k'] ⟨1⟩ _ rfl⟩

/-- C7: extraction returns the substring strictly between the first and the
last double quote — for any decomposition a ++ quote :: m ++ quote :: b with
no quotes in a or b it returns m — and returns "" whenever the string holds
at most one double quote (no quote at all, or the last not strictly after
the first); the four concrete P6 examples evaluate as claimed. -/
theorem c7_extract_rule :
    (∀ a m b : Str, quoteChar ∉ a → quoteChar ∉ b →
       extractAccountIDFromJQL
         (a ++ (quoteChar :: (m ++ (quoteChar :: b)))) = m) ∧
    (∀ s : Str, countQuote s ≤ 1 → extractAccountIDFromJQL s = []) ∧
    extractAccountIDFromJQL
        (("assignee = \x22account:5b10ac8d82e05b22cc7d4ef5\x22").toList)
      = (("account:5b10ac8d82e05b22cc7d4ef5").toList) ∧
    extractAccountIDFromJQL (("assignee = \x27account:x\x27").toList)
      = [] ∧
    extractAccountIDFromJQL [] = [] ∧
    extractAccountIDFromJQL (("assignee = \x22incomplete").toList) = [] := by
  refine ⟨extract_between, extract_eq_nil_of_count, by decide, by decide,
    rfl, by decide⟩

/-- Witness for c7_extract_rule: the general conjuncts applied at concrete
strings. -/
theorem c7_extract_rule_witness :
    extractAccountIDFromJQL
        (['x'] ++ (quoteChar :: (['a', 'b'] ++ (quoteChar :: ['y']))))
      = ['a', 'b'] ∧
    extractAccountIDFromJQL ['z'] = [] := by
  exact ⟨c7_extract_rule.1 ['x'] ['a', 'b'] ['y'] (by decide) (by decide),
    c7_extract_rule.2.1 ['z'] (by decide)⟩

/-- C8: on a cache miss, ConvertJQLWithUsername either succeeds — returning
the converted query and caching the extracted account ID for the username
with the fixed ten-minute TTL — or fails with the matching descriptive
error (propagated external failure, zero conversion results naming the
username, or extraction failure carrying the offending converted query),
performing no cache write, so the username stays absent from the cache. -/
theorem c8_resolution_error_handling :
    ∀ (now : Int) (cache : CacheMap) (u : Str)
      (ext : Except Str (List ConvertedQuery)),
    (cacheGet now cache u).1.2 = false →
    mapLookup u (cacheGet now cache u).2 = none ∧
    (∀ e, ext = Except.error e →
       convertJQLWithUsername now cache u ext
         = (Except.error (ResolveError.externalFailure e),
            (cacheGet now cache u).2)) ∧
    (ext = Except.ok [] →
       convertJQLWithUsername now cache u ext
         = (Except.error (ResolveError.noConversionResult u),
            (cacheGet now cache u).2)) ∧
    (∀ q rest, ext = Except.ok (q :: rest) →
       extractAccountIDFromJQL q.convertedQuery = [] →
       convertJQLWithUsername now cache u ext
         = (Except.error (ResolveError.extractFailed q.convertedQuery),
            (cacheGet now cache u).2)) ∧
    (∀ q rest, ext = Except.ok (q :: rest) →
       extractAccountIDFromJQL q.convertedQuery ≠ [] →
       convertJQLWithUsername now cache u ext
         = (Except.ok q.convertedQuery,
            cacheSet now (cacheGet now cache u).2 u
              (extractAccountIDFromJQL q.convertedQuery) tenMinutes) ∧
       mapLookup u (convertJQLWithUsername now cache u ext).2
         = some ⟨extractAccountIDFromJQL q.convertedQuery,
                 now + tenMinutes⟩) := by
  intro now cache u ext hmiss
  refine ⟨cacheGet_miss_absent now cache u hmiss, ?_, ?_, ?_, ?_⟩
  · rintro e rfl
    simp [convertJQLWithUsername, hmiss]
  · rintro rfl
    simp [convertJQLWithUsername, hmiss]
  · rintro q rest rfl hx
    simp [convertJQLWithUsername, hmiss, hx]
  · rintro q rest rfl hx
    constructor
    · simp [convertJQLWithUsername, hmiss, hx]
    · simp [convertJQLWithUsername, hmiss, hx, cacheSet,
        mapLookup_mapInsert_self]

/-- Witness for c8_resolution_error_handling: an empty conversion result on
a cold cache yields the no-conversion-result error and no cache write. -/
theorem c8_resolution_error_handling_witness :
    convertJQLWithUsername 0 [] ['u'] (Except.ok [])
      = (Except.error (ResolveError.noConversionResult ['u']), []) := by
  exact (c8_resolution_error_handling 0 [] ['u'] (Except.ok [])
    (by decide)).2.2.1 rfl

/-- C10: a successful miss-path call returns the external converted query
verbatim, while a subsequent within-TTL call for the same username is a
cache hit whose result ignores its external argument and is rebuilt as
assignee = "<id>" from the cached extracted identifier; the two strings are
equal exactly when the converted query itself has the rebuilt shape
assignee = "<id>" with no characters outside it. -/
theorem c10_hit_vs_miss_shape :
    ∀ (now t' : Int) (cache : CacheMap) (u : Str) (q : ConvertedQuery)
      (rest : List ConvertedQuery) (ext' : Except Str (List ConvertedQuery)),
    (cacheGet now cache u).1.2 = false →
    extractAccountIDFromJQL q.convertedQuery ≠ [] →
    t' ≤ now + tenMinutes →
    (convertJQLWithUsername now cache u (Except.ok (q :: rest))).1
      = Except.ok q.convertedQuery ∧
    (convertJQLWithUsername t'
        (convertJQLWithUsername now cache u (Except.ok (q :: rest))).2
        u ext').1
      = Except.ok
          (rebuildAssignee (extractAccountIDFromJQL q.convertedQuery)) ∧
    (rebuildAssignee (extractAccountIDFromJQL q.convertedQuery)
        = q.convertedQuery ↔
      ∃ idm : Str, q.convertedQuery = rebuildAssignee idm) := by
  intro now t' cache u q rest ext' hmiss hx ht
  have hc2 : (convertJQLWithUsername now cache u (Except.ok (q :: rest))).2
      = cacheSet now (cacheGet now cache u).2 u
          (extractAccountIDFromJQL q.convertedQuery) tenMinutes := by
    simp [convertJQLWithUsername, hmiss, hx]
  refine ⟨?_, ?_, ?_⟩
  · simp [convertJQLWithUsername, hmiss, hx]
  · rw [hc2]
    simp [convertJQLWithUsername, cacheGet, cacheSet,
      mapLookup_mapInsert_self, show ¬t' > now + tenMinutes by omega]
  · constructor
    · intro h
      exact ⟨extractAccountIDFromJQL q.convertedQuery, h.symm⟩
    · rintro ⟨idm, hq⟩
      rw [hq]
      have hextr : extractAccountIDFromJQL (rebuildAssignee idm) = idm := by
        have hh := extract_between (("assignee = ").toList) idm []
          (by decide) (by decide)
        simpa [rebuildAssignee] using hh
      rw [hextr]

/-- Witness for c10_hit_vs_miss_shape: resolving against a converted query
of the exact rebuilt shape on a cold cache. -/
theorem c10_hit_vs_miss_shape_witness :
    (convertJQLWithUsername 0 [] ['u']
        (Except.ok [⟨[], (("assignee = \x22z\x22").toList)⟩])).1
      = Except.ok (("assignee = \x22z\x22").toList) := by
  exact (c10_hit_vs_miss_shape 0 0 [] ['u']
    ⟨[], (("assignee = \x22z\x22").toList)⟩ [] (Except.error [])
    (by decide) (by decide) (by decide)).1
